import Mathlib

/-!
# Verification of the `blind` DNS tunnel core

Shallow embedding of the wire codec (`tunnel/common.go`), the client uplink /
query machinery (`DNSClient`), and the server request handler / session table
(`DNSServer`), together with theorems settling the frozen claims about them.

Conventions:
* Go `[]byte` is `List Nat` (each element a byte value; hypotheses state `< 256`
  where a claim needs it).
* Go `string` is `List Char` (the strings involved are ASCII, so Go bytes and
  Lean characters correspond one to one).
* Go's `encoding/base32` with the standard RFC 4648 alphabet and `NoPadding` is
  embedded as follows: encoding splits the big-endian bit stream into 5-bit
  groups padding the last group with zero bits (bit-exact); decoding strips
  CR/LF, rejects characters outside the alphabet, rejects inputs whose length
  is congruent to 1, 3 or 6 modulo 8, and drops the trailing partial byte of
  the bit stream.  The decode model is exact on the inputs the settled claims
  exercise — encoder outputs (whose lengths are never 1, 3 or 6 mod 8) and
  inputs containing characters invalid in every Go version.  Two corners of
  Go's `NoPadding` decoder are deliberately not modelled, and no settled claim
  depends on them: the pseudo-padding path taken when a byte equals
  `byte(NoPadding) = 0xFF`, and the exact end-of-input disposition of a final
  partial quantum of 1, 3 or 6 characters.
* Time stamps (`lastActive`), mutexes and the session reaper are elided: no
  settled claim depends on them; request handling is modelled sequentially.
-/

namespace Blind

/-! ## Bit-level helpers for base32 -/

/-- The `w`-bit big-endian bit pattern of `n` (most significant bit first). -/
def natToBits : Nat → Nat → List Bool
  | 0, _ => []
  | w + 1, n => natToBits w (n / 2) ++ [n % 2 == 1]

/-- Big-endian value of a bit list. -/
def bitsToNat (bs : List Bool) : Nat :=
  bs.foldl (fun a b => 2 * a + (if b then 1 else 0)) 0

theorem natToBits_length (w n : Nat) : (natToBits w n).length = w := by
  induction w generalizing n with
  | zero => rfl
  | succ k ih => simp [natToBits, ih]

theorem bitsToNat_append_bit (bs : List Bool) (b : Bool) :
    bitsToNat (bs ++ [b]) = 2 * bitsToNat bs + (if b then 1 else 0) := by
  simp [bitsToNat, List.foldl_append]

theorem bitsToNat_natToBits (w n : Nat) : bitsToNat (natToBits w n) = n % 2 ^ w := by
  induction w generalizing n with
  | zero => simp [natToBits, bitsToNat, Nat.mod_one]
  | succ k ih =>
    rw [natToBits, bitsToNat_append_bit, ih]
    have h2 : n % (2 * 2 ^ k) = n % 2 + 2 * (n / 2 % 2 ^ k) := Nat.mod_mul
    have hpow : 2 ^ (k + 1) = 2 * 2 ^ k := by ring
    have hbit : (if (n % 2 == 1) = true then 1 else 0) = n % 2 := by
      rcases Nat.mod_two_eq_zero_or_one n with h | h <;> simp [h]
    rw [hbit, hpow, h2]; ring

theorem natToBits_bitsToNat (bs : List Bool) : natToBits bs.length (bitsToNat bs) = bs := by
  induction bs using List.reverseRecOn with
  | nil => rfl
  | append_singleton l b ih =>
    rw [bitsToNat_append_bit]
    have hlen : (l ++ [b]).length = l.length + 1 := by simp
    rw [hlen, natToBits]
    have hdiv : (2 * bitsToNat l + (if b then 1 else 0)) / 2 = bitsToNat l := by
      cases b <;> simp <;> omega
    have hmod : ((2 * bitsToNat l + (if b then 1 else 0)) % 2 == 1) = b := by
      cases b <;> simp [Nat.add_mul_mod_self_left] <;> omega
    rw [hdiv, hmod, ih]

theorem bitsToNat_lt (bs : List Bool) : bitsToNat bs < 2 ^ bs.length := by
  induction bs using List.reverseRecOn with
  | nil => simp [bitsToNat]
  | append_singleton l b ih =>
    rw [bitsToNat_append_bit]
    have : (l ++ [b]).length = l.length + 1 := by simp
    rw [this, pow_succ]
    cases b <;> simp <;> omega

/-- Bits of a byte sequence, 8 bits per byte, most significant bit first. -/
def bytesToBits (data : List Nat) : List Bool :=
  (data.map (natToBits 8)).flatten

theorem bytesToBits_cons (b : Nat) (rest : List Nat) :
    bytesToBits (b :: rest) = natToBits 8 b ++ bytesToBits rest := by
  simp [bytesToBits]

theorem bytesToBits_length (data : List Nat) : (bytesToBits data).length = 8 * data.length := by
  induction data with
  | nil => rfl
  | cons b rest ih =>
    rw [bytesToBits_cons, List.length_append, natToBits_length, ih]
    simp; omega

/-- Split a bit stream into 5-bit base32 values; the final partial group is
padded with zero bits, exactly as RFC 4648 base32 encoding does. -/
def bitsToB32Vals : List Bool → List Nat
  | [] => []
  | [b0] => [bitsToNat [b0, false, false, false, false]]
  | [b0, b1] => [bitsToNat [b0, b1, false, false, false]]
  | [b0, b1, b2] => [bitsToNat [b0, b1, b2, false, false]]
  | [b0, b1, b2, b3] => [bitsToNat [b0, b1, b2, b3, false]]
  | b0 :: b1 :: b2 :: b3 :: b4 :: rest =>
      bitsToNat [b0, b1, b2, b3, b4] :: bitsToB32Vals rest

/-- Pack a bit stream into bytes, dropping a trailing group of fewer than
8 bits, exactly as RFC 4648 base32 decoding drops unused trailing bits. -/
def bitsToBytes : List Bool → List Nat
  | b0 :: b1 :: b2 :: b3 :: b4 :: b5 :: b6 :: b7 :: rest =>
      bitsToNat [b0, b1, b2, b3, b4, b5, b6, b7] :: bitsToBytes rest
  | _ => []

/-- The DNS-safe base32 alphabet of `tunnel/common.go` (`dnsBase32Alphabet`),
which is also the standard RFC 4648 base32 alphabet used by
`base32.StdEncoding`. -/
def dnsBase32Alphabet : List Char := "ABCDEFGHIJKLMNOPQRSTUVWXYZ234567".toList

/-- Character of the base32 alphabet for a 5-bit value. -/
def valToChar (v : Nat) : Char :=
  if v < 26 then Char.ofNat (65 + v) else Char.ofNat (24 + v)

/-- Base32 value of a character; `none` outside the alphabet (the decode map
of `base32.StdEncoding`). -/
def charToVal (c : Char) : Option Nat :=
  if 'A' ≤ c ∧ c ≤ 'Z' then some (c.toNat - 65)
  else if '2' ≤ c ∧ c ≤ '7' then some (c.toNat - 24)
  else none

/-- Map characters to base32 values, failing on the first invalid character
(as the decode loop of `encoding/base32` does). -/
def charsToVals : List Char → Option (List Nat)
  | [] => some []
  | c :: rest =>
    match charToVal c with
    | none => none
    | some v =>
      match charsToVals rest with
      | none => none
      | some vs => some (v :: vs)

/-- Go `base32.NewEncoding(...).WithPadding(NoPadding).EncodeToString` on the
standard alphabet: 5-bit groups of the big-endian bit stream, zero-padded at
the end, mapped through the alphabet. -/
def b32encode (data : List Nat) : List Char :=
  (bitsToB32Vals (bytesToBits data)).map valToChar

/-- Go `base32.StdEncoding.WithPadding(NoPadding).DecodeString`: carriage
returns and newlines are stripped, characters outside the alphabet are
rejected, input lengths congruent to 1, 3 or 6 mod 8 are rejected, and the
trailing partial byte of the bit stream is dropped. -/
def b32decodeString (s : List Char) : Option (List Nat) :=
  let t := s.filter (fun c => c != '\r' && c != '\n')
  match charsToVals t with
  | none => none
  | some vals =>
    if t.length % 8 = 1 ∨ t.length % 8 = 3 ∨ t.length % 8 = 6 then none
    else some (bitsToBytes ((vals.map (natToBits 5)).flatten))

/-! ## Label chunking and dot splitting/joining -/

/-- Fuel-indexed worker for `chunksOf` (fuel makes the recursion structural, so
that the kernel can evaluate it). -/
def chunksOfF (k : Nat) : Nat → List α → List (List α)
  | 0, _ => []
  | _ + 1, [] => []
  | fuel + 1, a :: rest => (a :: rest).take k :: chunksOfF k fuel ((a :: rest).drop k)

/-- Consecutive chunks of at most `k` elements (the `for i := 0; i < len; i += k`
slicing loops of `common.go`; those loops require `k > 0`, for `k = 0` we
return `[]`). -/
def chunksOf (k : Nat) (l : List α) : List (List α) :=
  if k = 0 then [] else chunksOfF k l.length l

/-- `splitDataIntoChunks` from `tunnel/common.go`. -/
def splitDataIntoChunks (data : List Nat) (chunkSize : Nat) : List (List Nat) :=
  chunksOf chunkSize data

/-- Go `strings.Join(ls, ".")`. -/
def joinDots : List (List Char) → List Char
  | [] => []
  | [l] => l
  | l :: ls => l ++ '.' :: joinDots ls

/-- Go `strings.Split(s, ".")`: splits at every dot, keeping empty pieces;
the empty string yields one empty piece. -/
def splitDots : List Char → List (List Char)
  | [] => [[]]
  | c :: rest =>
    if c = '.' then [] :: splitDots rest
    else
      match splitDots rest with
      | [] => [[c]]
      | p :: ps => (c :: p) :: ps

/-! ## The wire codec of `tunnel/common.go` -/

/-- `encodeDNSSafe` from `tunnel/common.go`: empty input yields the literal
`"EMPTY"`; otherwise base32-encode, split into 40-character labels
(`maxSafeLabelSize`), join with dots, then run the (dead) re-validation loop
that re-splits any label longer than 63 (`maxLabelSize`) characters. -/
def encodeDNSSafe (data : List Nat) : List Char :=
  if data = [] then "EMPTY".toList
  else
    let encoded := b32encode data
    let labels := chunksOf 40 encoded
    let result := joinDots labels
    (splitDots result).foldl
      (fun res label => if 63 < label.length then joinDots (chunksOf 40 label) else res)
      result

/-- `decodeDNSSafe` from `tunnel/common.go`: the literal `"EMPTY"` decodes to
the empty payload; otherwise all dots are removed and the rest is base32
decoded (`b32decodeString`), errors being propagated. -/
def decodeDNSSafe (s : List Char) : Option (List Nat) :=
  if s = "EMPTY".toList then some []
  else b32decodeString (s.filter (fun c => c != '.'))

/-! ## Lemmas about chunking -/

theorem chunksOfF_congr (k : Nat) (hk : 0 < k) :
    ∀ (fuel fuel' : Nat) (l : List α), l.length ≤ fuel → l.length ≤ fuel' →
      chunksOfF k fuel l = chunksOfF k fuel' l := by
  intro fuel
  induction fuel with
  | zero =>
    intro fuel' l h h'
    have : l = [] := List.length_eq_zero.mp (by omega)
    subst this
    cases fuel' <;> rfl
  | succ f ih =>
    intro fuel' l h h'
    cases l with
    | nil => cases fuel' <;> rfl
    | cons a rest =>
      cases fuel' with
      | zero => simp at h'
      | succ f' =>
        simp only [chunksOfF]
        congr 1
        have hd : ((a :: rest).drop k).length = rest.length + 1 - k := by
          rw [List.length_drop]; simp
        simp only [List.length_cons] at h h'
        apply ih <;> rw [hd] <;> omega

theorem chunksOf_nil (k : Nat) : chunksOf k ([] : List α) = [] := by
  unfold chunksOf chunksOfF
  split <;> rfl

theorem chunksOf_ne_nil (k : Nat) (hk : 0 < k) (l : List α) (hl : l ≠ []) :
    chunksOf k l = l.take k :: chunksOf k (l.drop k) := by
  cases l with
  | nil => exact absurd rfl hl
  | cons a rest =>
    unfold chunksOf
    rw [if_neg (by omega), if_neg (by omega)]
    simp only [List.length_cons, chunksOfF]
    congr 1
    apply chunksOfF_congr k hk
    · simp only [List.length_drop]; simp; omega
    · simp

theorem chunksOf_flatten_aux (k : Nat) (hk : 0 < k) :
    ∀ (n : Nat) (l : List α), l.length ≤ n → (chunksOf k l).flatten = l := by
  intro n
  induction n with
  | zero =>
    intro l hl
    have : l = [] := List.length_eq_zero.mp (by omega)
    simp [this, chunksOf_nil]
  | succ m ih =>
    intro l hl
    cases l with
    | nil => simp [chunksOf_nil]
    | cons a rest =>
      have hd : ((a :: rest).drop k).length ≤ m := by
        rw [List.length_drop]
        simp only [List.length_cons] at hl ⊢
        omega
      rw [chunksOf_ne_nil k hk _ (by simp), List.flatten_cons, ih _ hd,
        List.take_append_drop]

theorem chunksOf_flatten (k : Nat) (hk : 0 < k) (l : List α) :
    (chunksOf k l).flatten = l :=
  chunksOf_flatten_aux k hk l.length l le_rfl

theorem chunksOf_mem_aux (k : Nat) (hk : 0 < k) :
    ∀ (n : Nat) (l : List α), l.length ≤ n → ∀ c ∈ chunksOf k l,
      c.length ≤ k ∧ c ≠ [] ∧ ∀ x ∈ c, x ∈ l := by
  intro n
  induction n with
  | zero =>
    intro l hl c hc
    have : l = [] := List.length_eq_zero.mp (by omega)
    subst this
    rw [chunksOf_nil] at hc
    simp at hc
  | succ m ih =>
    intro l hl c hc
    cases l with
    | nil => rw [chunksOf_nil] at hc; simp at hc
    | cons a rest =>
      rw [chunksOf_ne_nil k hk _ (by simp)] at hc
      rcases List.mem_cons.mp hc with h | h
      · subst h
        obtain ⟨k', rfl⟩ : ∃ k', k = k' + 1 := ⟨k - 1, by omega⟩
        refine ⟨by simpa using List.length_take_le _ _, ?_,
          fun x hx => List.mem_of_mem_take hx⟩
        simp [List.take_succ_cons]
      · have hd : ((a :: rest).drop k).length ≤ m := by
          rw [List.length_drop]
          simp only [List.length_cons] at hl ⊢
          omega
        obtain ⟨h1, h2, h3⟩ := ih _ hd c h
        exact ⟨h1, h2, fun x hx => List.mem_of_mem_drop (h3 x hx)⟩

theorem chunksOf_mem_length (k : Nat) (hk : 0 < k) (l : List α) (c : List α)
    (hc : c ∈ chunksOf k l) : c.length ≤ k ∧ c ≠ [] ∧ ∀ x ∈ c, x ∈ l :=
  chunksOf_mem_aux k hk l.length l le_rfl c hc

/-! ## Lemmas about dot splitting and joining -/

theorem splitDots_ne_nil (s : List Char) : splitDots s ≠ [] := by
  induction s with
  | nil => simp [splitDots]
  | cons c rest ih =>
    simp only [splitDots]
    split
    · simp
    · split <;> simp

theorem splitDots_no_dot (l : List Char) (h : '.' ∉ l) : splitDots l = [l] := by
  induction l with
  | nil => rfl
  | cons c rest ih =>
    have hc : c ≠ '.' := fun hc => h (hc ▸ List.mem_cons_self c rest)
    have hr : '.' ∉ rest := fun hr => h (List.mem_cons_of_mem c hr)
    simp only [splitDots, if_neg hc, ih hr]

theorem splitDots_append_dot (a rest : List Char) (h : '.' ∉ a) :
    splitDots (a ++ '.' :: rest) = a :: splitDots rest := by
  induction a with
  | nil => simp [splitDots]
  | cons c t ih =>
    have hc : c ≠ '.' := fun hc => h (hc ▸ List.mem_cons_self c t)
    have ht : '.' ∉ t := fun ht => h (List.mem_cons_of_mem c ht)
    simp only [List.cons_append, splitDots, if_neg hc, List.append_eq, ih ht]

theorem splitDots_joinDots (ls : List (List Char)) (hne : ls ≠ [])
    (hdot : ∀ l ∈ ls, '.' ∉ l) : splitDots (joinDots ls) = ls := by
  induction ls with
  | nil => exact absurd rfl hne
  | cons l rest ih =>
    cases rest with
    | nil => exact splitDots_no_dot l (hdot l (by simp))
    | cons m t =>
      rw [show joinDots (l :: m :: t) = l ++ '.' :: joinDots (m :: t) from rfl,
        splitDots_append_dot l _ (hdot l (by simp)),
        ih (by simp) (fun x hx => hdot x (List.mem_cons_of_mem l hx))]

theorem filter_dots_joinDots (ls : List (List Char)) (hdot : ∀ l ∈ ls, '.' ∉ l) :
    (joinDots ls).filter (fun c => c != '.') = ls.flatten := by
  induction ls with
  | nil => rfl
  | cons l rest ih =>
    have hfl : l.filter (fun c => c != '.') = l :=
      List.filter_eq_self.mpr fun a ha => by
        have hne : a ≠ '.' := fun h => hdot l (by simp) (h ▸ ha)
        simpa using hne
    cases rest with
    | nil => simpa [joinDots] using hfl
    | cons m t =>
      rw [show joinDots (l :: m :: t) = l ++ '.' :: joinDots (m :: t) from rfl,
        List.filter_append, hfl]
      simp only [List.filter_cons]
      rw [if_neg (by simp)]
      rw [ih (fun x hx => hdot x (List.mem_cons_of_mem l hx))]
      simp

/-! ## Character-map lemmas -/

theorem charToVal_valToChar : ∀ v < 32, charToVal (valToChar v) = some v := by decide

theorem valToChar_mem_alphabet : ∀ v < 32, valToChar v ∈ dnsBase32Alphabet := by decide

theorem alphabet_plain : ∀ c ∈ dnsBase32Alphabet, c ≠ '.' ∧ c ≠ '\r' ∧ c ≠ '\n' := by decide

/-! ## Bit-group lemmas -/

theorem bitsToB32Vals_lt (bs : List Bool) : ∀ v ∈ bitsToB32Vals bs, v < 32 := by
  induction bs using bitsToB32Vals.induct with
  | case1 => simp [bitsToB32Vals]
  | case2 b0 =>
    intro v hv
    simp only [bitsToB32Vals, List.mem_singleton] at hv
    exact hv ▸ bitsToNat_lt [b0, false, false, false, false]
  | case3 b0 b1 =>
    intro v hv
    simp only [bitsToB32Vals, List.mem_singleton] at hv
    exact hv ▸ bitsToNat_lt [b0, b1, false, false, false]
  | case4 b0 b1 b2 =>
    intro v hv
    simp only [bitsToB32Vals, List.mem_singleton] at hv
    exact hv ▸ bitsToNat_lt [b0, b1, b2, false, false]
  | case5 b0 b1 b2 b3 =>
    intro v hv
    simp only [bitsToB32Vals, List.mem_singleton] at hv
    exact hv ▸ bitsToNat_lt [b0, b1, b2, b3, false]
  | case6 b0 b1 b2 b3 b4 rest ih =>
    intro v hv
    simp only [bitsToB32Vals, List.mem_cons] at hv
    rcases hv with h | h
    · exact h ▸ bitsToNat_lt [b0, b1, b2, b3, b4]
    · exact ih v h

theorem bitsToB32Vals_length (bs : List Bool) :
    (bitsToB32Vals bs).length = (bs.length + 4) / 5 := by
  induction bs using bitsToB32Vals.induct <;> simp [bitsToB32Vals, *] <;> omega

theorem bitsToB32Vals_flatten (bs : List Bool) :
    ∃ p < 5, ((bitsToB32Vals bs).map (natToBits 5)).flatten =
      bs ++ List.replicate p false := by
  induction bs using bitsToB32Vals.induct with
  | case1 => exact ⟨0, by omega, by simp [bitsToB32Vals]⟩
  | case2 b0 =>
    refine ⟨4, by omega, ?_⟩
    have := natToBits_bitsToNat [b0, false, false, false, false]
    simp only [List.length_cons, List.length_nil] at this
    simp [bitsToB32Vals, this, List.replicate]
  | case3 b0 b1 =>
    refine ⟨3, by omega, ?_⟩
    have := natToBits_bitsToNat [b0, b1, false, false, false]
    simp only [List.length_cons, List.length_nil] at this
    simp [bitsToB32Vals, this, List.replicate]
  | case4 b0 b1 b2 =>
    refine ⟨2, by omega, ?_⟩
    have := natToBits_bitsToNat [b0, b1, b2, false, false]
    simp only [List.length_cons, List.length_nil] at this
    simp [bitsToB32Vals, this, List.replicate]
  | case5 b0 b1 b2 b3 =>
    refine ⟨1, by omega, ?_⟩
    have := natToBits_bitsToNat [b0, b1, b2, b3, false]
    simp only [List.length_cons, List.length_nil] at this
    simp [bitsToB32Vals, this, List.replicate]
  | case6 b0 b1 b2 b3 b4 rest ih =>
    obtain ⟨p, hp, hrec⟩ := ih
    refine ⟨p, hp, ?_⟩
    have := natToBits_bitsToNat [b0, b1, b2, b3, b4]
    simp only [List.length_cons, List.length_nil] at this
    simp [bitsToB32Vals, this, hrec]

theorem charsToVals_map_valToChar (vs : List Nat) (h : ∀ v ∈ vs, v < 32) :
    charsToVals (vs.map valToChar) = some vs := by
  induction vs with
  | nil => rfl
  | cons v rest ih =>
    simp only [List.map_cons, charsToVals,
      charToVal_valToChar v (h v (by simp)),
      ih (fun x hx => h x (List.mem_cons_of_mem v hx))]

theorem bitsToBytes_cons8 (g rest : List Bool) (hg : g.length = 8) :
    bitsToBytes (g ++ rest) = bitsToNat g :: bitsToBytes rest := by
  rcases g with _ | ⟨x0, _ | ⟨x1, _ | ⟨x2, _ | ⟨x3, _ | ⟨x4, _ | ⟨x5, _ | ⟨x6, _ | ⟨x7, t⟩⟩⟩⟩⟩⟩⟩⟩ <;>
    simp only [List.length_cons, List.length_nil] at hg <;> try omega
  have ht : t = [] := List.length_eq_zero.mp (by omega)
  subst ht
  rfl

theorem bitsToBytes_short (l : List Bool) (hl : l.length < 8) : bitsToBytes l = [] := by
  rcases l with _ | ⟨x0, _ | ⟨x1, _ | ⟨x2, _ | ⟨x3, _ | ⟨x4, _ | ⟨x5, _ | ⟨x6, _ | ⟨x7, t⟩⟩⟩⟩⟩⟩⟩⟩ <;>
    first
      | rfl
      | (simp only [List.length_cons] at hl; omega)

theorem bitsToBytes_bytesToBits (data : List Nat) (hb : ∀ b ∈ data, b < 256)
    (extra : List Bool) (he : extra.length < 8) :
    bitsToBytes (bytesToBits data ++ extra) = data := by
  induction data with
  | nil => simpa [bytesToBits] using bitsToBytes_short extra he
  | cons b rest ih =>
    rw [bytesToBits_cons, List.append_assoc,
      bitsToBytes_cons8 _ _ (natToBits_length 8 b), bitsToNat_natToBits,
      show b % 2 ^ 8 = b from Nat.mod_eq_of_lt (by have := hb b (by simp); norm_num; omega),
      ih (fun x hx => hb x (List.mem_cons_of_mem b hx))]

/-! ## The base32 roundtrip -/

theorem b32encode_mem_alphabet (data : List Nat) :
    ∀ c ∈ b32encode data, c ∈ dnsBase32Alphabet := by
  intro c hc
  obtain ⟨v, hv, rfl⟩ := List.mem_map.mp hc
  exact valToChar_mem_alphabet v (bitsToB32Vals_lt _ v hv)

theorem b32vals_len_mod (n : Nat) :
    ¬(((8 * n + 4) / 5) % 8 = 1 ∨ ((8 * n + 4) / 5) % 8 = 3 ∨
      ((8 * n + 4) / 5) % 8 = 6) := by
  omega

theorem b32decodeString_b32encode (data : List Nat) (hb : ∀ b ∈ data, b < 256) :
    b32decodeString (b32encode data) = some data := by
  have hfilter : (b32encode data).filter (fun c => c != '\r' && c != '\n') =
      b32encode data :=
    List.filter_eq_self.mpr fun c hc => by
      obtain ⟨_, h2, h3⟩ := alphabet_plain c (b32encode_mem_alphabet data c hc)
      simp [h2, h3]
  have hvals : charsToVals (b32encode data) = some (bitsToB32Vals (bytesToBits data)) :=
    charsToVals_map_valToChar _ (bitsToB32Vals_lt _)
  have hlen : (b32encode data).length = (8 * data.length + 4) / 5 := by
    simp [b32encode, bitsToB32Vals_length, bytesToBits_length]
  obtain ⟨p, hp, hflat⟩ := bitsToB32Vals_flatten (bytesToBits data)
  simp only [b32decodeString, hfilter, hvals, hlen]
  rw [if_neg (b32vals_len_mod data.length), hflat,
    bitsToBytes_bytesToBits data hb _ (by simpa using by omega : (List.replicate p false).length < 8)]

/-! ## encodeDNSSafe normal form -/

theorem foldl_revalidate_id (ls : List (List Char)) (acc : List Char)
    (h : ∀ l ∈ ls, l.length ≤ 63) :
    ls.foldl (fun res label => if 63 < label.length then joinDots (chunksOf 40 label) else res)
      acc = acc := by
  induction ls generalizing acc with
  | nil => rfl
  | cons l rest ih =>
    rw [List.foldl_cons, if_neg (by have := h l (by simp); omega : ¬ 63 < l.length)]
    exact ih acc fun x hx => h x (List.mem_cons_of_mem l hx)

theorem b32encode_ne_nil (data : List Nat) (hd : data ≠ []) : b32encode data ≠ [] := by
  have hlen : (b32encode data).length = (8 * data.length + 4) / 5 := by
    simp [b32encode, bitsToB32Vals_length, bytesToBits_length]
  have hpos : 0 < data.length := List.length_pos.mpr hd
  have : 0 < (b32encode data).length := by omega
  exact List.length_pos.mp this

theorem encode_labels_no_dot (data : List Nat) (l : List Char)
    (hl : l ∈ chunksOf 40 (b32encode data)) : '.' ∉ l := fun hdot =>
  (alphabet_plain '.' (b32encode_mem_alphabet data '.'
    ((chunksOf_mem_length 40 (by omega) _ l hl).2.2 '.' hdot))).1 rfl

theorem encodeDNSSafe_eq_joinDots (data : List Nat) (hd : data ≠ []) :
    encodeDNSSafe data = joinDots (chunksOf 40 (b32encode data)) := by
  have hEne : b32encode data ≠ [] := b32encode_ne_nil data hd
  have hne : chunksOf 40 (b32encode data) ≠ [] := by
    rw [chunksOf_ne_nil 40 (by omega) _ hEne]
    simp
  simp only [encodeDNSSafe, if_neg hd]
  rw [splitDots_joinDots _ hne (encode_labels_no_dot data)]
  exact foldl_revalidate_id _ _ fun l hl => by
    have := (chunksOf_mem_length 40 (by omega) _ l hl).1
    omega

theorem encodeDNSSafe_filter_dots (data : List Nat) (hd : data ≠ []) :
    (encodeDNSSafe data).filter (fun c => c != '.') = b32encode data := by
  rw [encodeDNSSafe_eq_joinDots data hd,
    filter_dots_joinDots _ (encode_labels_no_dot data),
    chunksOf_flatten 40 (by omega)]

theorem decodeDNSSafe_encodeDNSSafe (data : List Nat) (hd : data ≠ [])
    (hb : ∀ b ∈ data, b < 256) (hcoll : data ≠ [35, 31, 60]) :
    decodeDNSSafe (encodeDNSSafe data) = some data := by
  by_cases hE : encodeDNSSafe data = "EMPTY".toList
  · exfalso
    have h1 : b32encode data = "EMPTY".toList := by
      rw [← encodeDNSSafe_filter_dots data hd, hE]
      decide
    have h2 : some data = some [35, 31, 60] := by
      rw [← b32decodeString_b32encode data hb, h1]
      decide
    exact hcoll (Option.some.injEq _ _ ▸ h2)
  · simp only [decodeDNSSafe, if_neg hE]
    rw [encodeDNSSafe_filter_dots data hd, b32decodeString_b32encode data hb]

/-! ## Claim C1: decode ∘ encode roundtrip -/

/-- C1 counterexample: the claim `decodeDNSSafe (encodeDNSSafe P) = P` for all
`1 ≤ |P| ≤ 100` fails at `P = [0x23, 0x1F, 0x3C]`, whose base32 encoding is
the literal sentinel `"EMPTY"`, which decodes to the empty payload. -/
theorem C1_counterexample :
    decodeDNSSafe (encodeDNSSafe [35, 31, 60]) = some [] ∧
      decodeDNSSafe (encodeDNSSafe [35, 31, 60]) ≠ some [35, 31, 60] := by
  constructor <;> decide

/-- C1 (amended): for every byte payload `P` with `1 ≤ |P| ≤ 100` other than
`[0x23, 0x1F, 0x3C]` (the unique payload whose encoding collides with the
`"EMPTY"` sentinel), `decodeDNSSafe (encodeDNSSafe P) = P`. -/
theorem C1_roundtrip (P : List Nat) (h1 : 1 ≤ P.length) (h100 : P.length ≤ 100)
    (hb : ∀ b ∈ P, b < 256) (hcoll : P ≠ [35, 31, 60]) :
    decodeDNSSafe (encodeDNSSafe P) = some P :=
  decodeDNSSafe_encodeDNSSafe P (by rintro rfl; simp at h1) hb hcoll

/-- Witness for C1_roundtrip at the concrete payload `[1, 2]`. -/
theorem C1_roundtrip_witness : decodeDNSSafe (encodeDNSSafe [1, 2]) = some [1, 2] :=
  C1_roundtrip [1, 2] (by decide) (by decide) (by decide) (by decide)

/-! ## Claim C7: label safety of the encoder -/

/-- C7: `encodeDNSSafe []` is the literal `"EMPTY"`, and for every payload `P`
every dot-separated label of `encodeDNSSafe P` has length at most 63, contains
no dot, and consists only of characters of the base32 alphabet
`ABCDEFGHIJKLMNOPQRSTUVWXYZ234567` (this also covers the `"EMPTY"` label,
whose characters all lie in the alphabet). -/
theorem C7_encode_labels :
    encodeDNSSafe [] = "EMPTY".toList ∧
    ∀ (P : List Nat), ∀ l ∈ splitDots (encodeDNSSafe P),
      l.length ≤ 63 ∧ '.' ∉ l ∧ ∀ c ∈ l, c ∈ dnsBase32Alphabet := by
  refine ⟨rfl, fun P l hl => ?_⟩
  by_cases hd : P = []
  · subst hd
    have hsp : splitDots (encodeDNSSafe []) = [['E', 'M', 'P', 'T', 'Y']] := by decide
    rw [hsp, List.mem_singleton] at hl
    subst hl
    decide
  · rw [encodeDNSSafe_eq_joinDots P hd] at hl
    have hne : chunksOf 40 (b32encode P) ≠ [] := by
      rw [chunksOf_ne_nil 40 (by omega) _ (b32encode_ne_nil P hd)]
      simp
    rw [splitDots_joinDots _ hne (encode_labels_no_dot P)] at hl
    obtain ⟨h40, -, hsub⟩ := chunksOf_mem_length 40 (by omega) _ l hl
    exact ⟨by omega, encode_labels_no_dot P l hl,
      fun c hc => b32encode_mem_alphabet P c (hsub c hc)⟩

/-- Witness for C7_encode_labels at `P = [1]`, whose encoding is the single
label `"AE"`. -/
theorem C7_encode_labels_witness :
    ['A', 'E'].length ≤ 63 ∧ '.' ∉ ['A', 'E'] ∧ ∀ c ∈ ['A', 'E'], c ∈ dnsBase32Alphabet :=
  C7_encode_labels.2 [1] ['A', 'E'] (by decide)

/-! ## Client model (`DNSClient`, part_001 / tunnel/client.go) -/

/-- Lower-case hex digit (as Go `%x` formatting produces). -/
def hexDigit (n : Nat) : Char :=
  if n < 10 then Char.ofNat (48 + n) else Char.ofNat (87 + n)

/-- Go `fmt.Sprintf("%04x", v)` for `v < 65536` (the sequence field of a data
query; the argument is a `uint16`, so it is always below 65536). -/
def toHex4 (v : Nat) : List Char :=
  [hexDigit (v / 4096 % 16), hexDigit (v / 256 % 16), hexDigit (v / 16 % 16),
    hexDigit (v % 16)]

/-- The (sequence value, payload) pairs of the DNS queries `DNSClient.sendChunk`
emits for one chunk: the chunk is split into 100-byte subchunks and subchunk
`i` is sent with sequence `sequence + i` in `uint16` arithmetic (part_001 lines
190-222; the name rendered on the wire is
`encodeDNSSafe(payload).%04x(seq).sid.tld`). -/
def sendChunkQueries (chunk : List Nat) (sequence : Nat) : List (Nat × List Nat) :=
  (splitDataIntoChunks chunk 100).enum.map fun p => ((sequence + p.1) % 65536, p.2)

/-- The (sequence value, payload) pairs emitted by the uplink read-loop of
`DNSClient.handleConnection` (part_001 lines 106-137) for the given successive
nonempty local reads: each read is passed to `sendChunk` with the current
counter, and the counter then advances by one (`sequence++` on a `uint16`). -/
def uplinkQueries : Nat → List (List Nat) → List (Nat × List Nat)
  | _, [] => []
  | sequence, r :: rs =>
      sendChunkQueries r sequence ++ uplinkQueries ((sequence + 1) % 65536) rs

/-- The poll query name of `DNSClient.pollForData`:
`fmt.Sprintf("AA.ffff.%s.%s", sessionID, tld)`. -/
def pollFqdn (sid tld : List Char) : List Char :=
  "AA.ffff.".toList ++ sid ++ '.' :: tld

/-! ## Client sequencing lemmas -/

theorem sendChunkQueries_single (r : List Nat) (c : Nat) (hne : r ≠ [])
    (hlen : r.length ≤ 100) : sendChunkQueries r c = [(c % 65536, r)] := by
  have hchunk : splitDataIntoChunks r 100 = [r] := by
    rw [splitDataIntoChunks, chunksOf_ne_nil 100 (by omega) r hne,
      List.take_of_length_le hlen, List.drop_eq_nil_of_le (by omega), chunksOf_nil]
  simp [sendChunkQueries, hchunk]

theorem uplinkQueries_fst_singles (reads : List (List Nat))
    (h : ∀ r ∈ reads, r ≠ [] ∧ r.length ≤ 100) (c : Nat) :
    (uplinkQueries c reads).map Prod.fst =
      (List.range reads.length).map fun i => (c + i) % 65536 := by
  induction reads generalizing c with
  | nil => rfl
  | cons r rs ih =>
    obtain ⟨hne, hlen⟩ := h r (by simp)
    rw [uplinkQueries, List.map_append,
      sendChunkQueries_single r c hne hlen,
      ih (fun x hx => h x (List.mem_cons_of_mem r hx)) ((c + 1) % 65536)]
    rw [List.length_cons, List.range_succ_eq_map]
    simp only [List.map_cons, List.map_map, List.map_nil, List.nil_append,
      List.cons_append]
    congr 1
    · apply List.map_congr_left
      intro i _
      simp only [Function.comp_apply, Nat.succ_eq_add_one]
      rw [Nat.mod_add_mod]
      omega

theorem uplinkQueries_fst_range (reads : List (List Nat))
    (h : ∀ r ∈ reads, r ≠ [] ∧ r.length ≤ 100) (hn : reads.length ≤ 65536) :
    (uplinkQueries 0 reads).map Prod.fst = List.range reads.length := by
  rw [uplinkQueries_fst_singles reads h 0]
  have hcong : ∀ i ∈ List.range reads.length, (0 + i) % 65536 = i := by
    intro i hi
    have : i < reads.length := List.mem_range.mp hi
    omega
  rw [List.map_congr_left hcong]
  simp

/-! ## Server model (`DNSServer` and `Session`, part_002)

The fields `conn` (a live TCP connection or nil) and `closed` of `Session` are
modelled as the booleans `connLive` and `closed`; `lastActive`, the mutexes and
the 30-second reaper are elided (no settled claim depends on them), and
requests are handled sequentially.  The outcomes of backend I/O (dialing,
reading, writing) are supplied by an oracle, one outcome per request. -/

/-- Outcome of dialing the backend (`Session.reconnect`). -/
inductive DialResult where
  | ok
  | fail
deriving DecidableEq

/-- Outcome of the bounded backend read of a poll (`conn.Read` with a 50 ms
deadline): `ok bs` is a successful read returning `bs` (possibly empty),
`timeout` a deadline expiry, `eof` end of file, `reset` a connection reset,
`otherErr` any other read error. -/
inductive ReadResult where
  | ok (bs : List Nat)
  | timeout
  | eof
  | reset
  | otherErr
deriving DecidableEq

/-- Outcome of the backend write of a data query (`conn.Write`). -/
inductive WriteResult where
  | ok
  | fail
deriving DecidableEq

/-- Per-request backend I/O outcomes. -/
structure Oracle where
  dial : DialResult
  read : ReadResult
  write : WriteResult
deriving DecidableEq

/-- The server-side `Session` record (part_002 lines 15-20): `connLive` is
`conn != nil`, `closed` the `closed` flag. -/
structure Session where
  connLive : Bool
  closed : Bool
deriving DecidableEq, Repr

/-- `Session.Close` (part_002 lines 136-147): if not yet closed, set `closed`
and close/nil the connection. -/
def Session.close (s : Session) : Session :=
  if s.closed then s else { connLive := false, closed := true }

/-- `Session.Write` (part_002 lines 79-100): nil connection is an error; a
failed write closes the connection and nils the slot; result is
`(success?, updated session)`. -/
def Session.write (s : Session) (w : WriteResult) : Bool × Session :=
  if s.connLive then
    match w with
    | .ok => (true, s)
    | .fail => (false, { s with connLive := false })
  else (false, s)

/-- The session table `DNSServer.sessions`, keyed by session id. -/
def SessionTable := List (List Char × Session)

/-- Go map lookup on the session table. -/
def lookupSession : SessionTable → List Char → Option Session
  | [], _ => none
  | (k, v) :: rest, sid => if k = sid then some v else lookupSession rest sid

/-- Go map insertion/replacement on the session table. -/
def setSession : SessionTable → List Char → Session → SessionTable
  | [], sid, s => [(sid, s)]
  | (k, v) :: rest, sid, s =>
    if k = sid then (sid, s) :: rest else (k, v) :: setSession rest sid s

/-- `DNSServer.getSession` (part_002 lines 188-212): if the id is absent or
its connection slot is nil, a fresh session is created, the backend dialed
(`reconnect`), and the entry written; a dial failure is an error, returned
before any table write.  Otherwise the existing session is returned. -/
def getSession (tbl : SessionTable) (sid : List Char) (d : DialResult) :
    Option (Session × SessionTable) :=
  match lookupSession tbl sid with
  | some s =>
    if s.connLive then some (s, tbl)
    else
      match d with
      | .ok => some ({ connLive := true, closed := false },
          setSession tbl sid { connLive := true, closed := false })
      | .fail => none
  | none =>
    match d with
    | .ok => some ({ connLive := true, closed := false },
        setSession tbl sid { connLive := true, closed := false })
    | .fail => none

/-- `DNSServer.handlePoll` (part_002 lines 214-241): a closed session answers
the sentinel bytes `"CLOSED"`; otherwise the backend is read with a 50 ms
deadline: EOF or reset closes the session and answers `"CLOSED"`, a timeout or
an empty read answers `"EMPTY"`, any other error is returned as an error
(`none`), and data is returned as is.  (The function is only invoked on
sessions just returned by `getSession`, whose connection slot is live;
the nil-connection read Go would perform otherwise is not modelled.)
Result is `(answer bytes or error, updated session)`. -/
def handlePoll (s : Session) (r : ReadResult) : Option (List Nat) × Session :=
  if s.closed then (some ("CLOSED".toList.map Char.toNat), s)
  else
    match r with
    | .eof => (some ("CLOSED".toList.map Char.toNat), s.close)
    | .reset => (some ("CLOSED".toList.map Char.toNat), s.close)
    | .timeout => (some ("EMPTY".toList.map Char.toNat), s)
    | .otherErr => (none, s)
    | .ok bs => if bs = [] then (some ("EMPTY".toList.map Char.toNat), s) else (some bs, s)

/-- Go `strings.TrimSuffix(name, ".")`: drop one trailing dot if present. -/
def trimSuffixDot (s : List Char) : List Char :=
  if s.getLast? = some '.' then s.dropLast else s

/-- The name-parsing fragment of `DNSServer.handleDNSRequest` (part_002 lines
268-286): split the name (one trailing dot removed) on dots, require at least
4 parts, and read `(encoded data, sequence, session id, tld)` from the right;
the encoded data is the dot-join of everything left of the last three parts. -/
def parseName (name : List Char) :
    Option (List Char × List Char × List Char × List Char) :=
  let parts := splitDots (trimSuffixDot name)
  if parts.length < 4 then none
  else
    some (joinDots (parts.take (parts.length - 3)),
      parts.getD (parts.length - 3) [],
      parts.getD (parts.length - 2) [],
      parts.getD (parts.length - 1) [])

/-- DNS response codes the handler sets (`dns.RcodeFormatError`,
`dns.RcodeServerFailure`). -/
inductive Rcode where
  | formatError
  | servFail
deriving DecidableEq

/-- The reply of `DNSServer.handleDNSRequest`: an error reply carrying an
RCODE, or a success reply with the TXT record's strings. -/
inductive Reply where
  | err (rc : Rcode)
  | txt (strs : List (List Char))
deriving DecidableEq

/-- `DNSServer.handleDNSRequest` (part_002 lines 243-423) for one question
name, given the backend I/O oracle; returns the reply and the updated session
table.  (Queries with zero questions, which the Go handler drops silently, and
the EDNS0 bookkeeping of the reply are not modelled.)  Mutations of the
session object (a pointer in Go) are modelled by writing the updated session
back into the table. -/
def handleDNSRequest (tbl : SessionTable) (name : List Char) (o : Oracle) :
    Reply × SessionTable :=
  match parseName name with
  | none => (.err .formatError, tbl)
  | some (encodedData, seqPart, sid, _tld) =>
    match getSession tbl sid o.dial with
    | none => (.err .servFail, tbl)
    | some (session, tbl1) =>
      if seqPart = "ffff".toList then
        match handlePoll session o.read with
        | (none, s1) => (.err .servFail, setSession tbl1 sid s1)
        | (some response, s1) =>
          if response = [] then
            (.txt ["EMPTY".toList], setSession tbl1 sid s1)
          else
            (.txt (splitDots (encodeDNSSafe response)), setSession tbl1 sid s1)
      else
        match decodeDNSSafe encodedData with
        | none => (.err .formatError, tbl1)
        | some decodedData =>
          if decodedData = [] then
            (.txt (if 180 < ("EMPTY".toList).length
              then chunksOf 180 "EMPTY".toList else ["EMPTY".toList]), tbl1)
          else
            match session.write o.write with
            | (false, s1) => (.err .servFail, setSession tbl1 sid s1)
            | (true, s1) =>
              (.txt (if 180 < ("EMPTY".toList).length
                then chunksOf 180 "EMPTY".toList else ["EMPTY".toList]),
               setSession tbl1 sid s1)

/-! ## Supporting lemmas for the claims -/

theorem hexDigit_eq_f : ∀ d < 16, hexDigit d = 'f' → d = 15 := by decide

theorem toHex4_ne_ffff (v : Nat) (hv : v < 65535) : toHex4 v ≠ "ffff".toList := by
  intro h
  simp only [toHex4, show "ffff".toList = ['f', 'f', 'f', 'f'] from rfl,
    List.cons.injEq, and_true] at h
  obtain ⟨h1, h2, h3, h4⟩ := h
  have e1 := hexDigit_eq_f _ (Nat.mod_lt _ (by omega)) h1
  have e2 := hexDigit_eq_f _ (Nat.mod_lt _ (by omega)) h2
  have e3 := hexDigit_eq_f _ (Nat.mod_lt _ (by omega)) h3
  have e4 := hexDigit_eq_f _ (Nat.mod_lt _ (by omega)) h4
  omega

theorem lookup_setSession_self (tbl : SessionTable) (sid : List Char) (s : Session) :
    lookupSession (setSession tbl sid s) sid = some s := by
  induction tbl with
  | nil => simp [setSession, lookupSession]
  | cons kv rest ih =>
    obtain ⟨k, v⟩ := kv
    by_cases hk : k = sid
    · subst hk
      simp [setSession, lookupSession]
    · simp [setSession, lookupSession, hk, ih]

theorem parseName_pollFqdn (sid tld : List Char) (hsid : '.' ∉ sid)
    (htld : '.' ∉ tld) (hne : tld ≠ []) :
    parseName (pollFqdn sid tld) = some ("AA".toList, "ffff".toList, sid, tld) := by
  have htrim : trimSuffixDot (pollFqdn sid tld) = pollFqdn sid tld := by
    have hshape : pollFqdn sid tld = ("AA.ffff.".toList ++ sid ++ ['.']) ++ tld := by
      simp [pollFqdn]
    rw [trimSuffixDot, if_neg]
    rw [hshape, List.getLast?_append]
    cases htl : tld.getLast? with
    | none => exact absurd (List.getLast?_eq_none_iff.mp htl) hne
    | some c =>
      simp only [Option.or]
      intro hlast
      have hc : c = '.' := by injection hlast
      exact htld (hc ▸ List.mem_of_getLast?_eq_some htl)
  have hsplit : splitDots (pollFqdn sid tld) =
      [['A', 'A'], ['f', 'f', 'f', 'f'], sid, tld] := by
    rw [show pollFqdn sid tld =
        ['A', 'A'] ++ '.' :: (['f', 'f', 'f', 'f'] ++ '.' :: (sid ++ '.' :: tld)) from rfl,
      splitDots_append_dot _ _ (by decide), splitDots_append_dot _ _ (by decide),
      splitDots_append_dot _ _ hsid, splitDots_no_dot tld htld]
  rw [parseName]
  simp only [htrim, hsplit, List.length_cons, List.length_nil]
  norm_num
  rfl

/-! ## Claim C3: uplink sequence numbers -/

/-- C3 counterexample: a 101-byte read yields two subchunks with sequences
0 and 1, but the per-connection counter advances by only one per read, so the
following 1-byte read reuses sequence 1: the emitted sequence numbers
`[0, 1, 1]` are not pairwise distinct, although no wrap occurred. -/
theorem C3_counterexample :
    (uplinkQueries 0 [List.replicate 101 0, [0]]).map Prod.fst = [0, 1, 1] ∧
    ¬ ((uplinkQueries 0 [List.replicate 101 0, [0]]).map Prod.fst).Nodup := by
  constructor <;> decide

/-- C3 (amended): within one read the `k` subchunk queries carry sequences
`ctr, ctr+1, …, ctr+k-1` (mod 2^16), as claimed; but the counter then advances
by one per read, not by `k`, so sequence values are reused whenever a read
yields more than one subchunk.  The emitted sequence numbers of a connection
are monotonically advancing (indeed exactly `0, 1, 2, …`) precisely in the
regime where every read yields a single subchunk (nonempty reads of at most
100 bytes) and at most 2^16 reads occur. -/
theorem C3_amended :
    (∀ (chunk : List Nat) (seq : Nat),
      (sendChunkQueries chunk seq).map Prod.fst =
        (List.range (splitDataIntoChunks chunk 100).length).map fun i =>
          (seq + i) % 65536) ∧
    (∀ reads : List (List Nat), (∀ r ∈ reads, r ≠ [] ∧ r.length ≤ 100) →
      reads.length ≤ 65536 →
      (uplinkQueries 0 reads).map Prod.fst = List.range reads.length ∧
      ((uplinkQueries 0 reads).map Prod.fst).Nodup) := by
  constructor
  · intro chunk seq
    rw [← List.enum_map_fst (splitDataIntoChunks chunk 100), sendChunkQueries,
      List.map_map, List.map_map]
    rfl
  · intro reads h hn
    have := uplinkQueries_fst_range reads h hn
    exact ⟨this, this ▸ List.nodup_range _⟩

/-- Witness for C3_amended on the two reads `[[1], [2]]`. -/
theorem C3_amended_witness :
    (uplinkQueries 0 [[1], [2]]).map Prod.fst = List.range 2 ∧
    ((uplinkQueries 0 [[1], [2]]).map Prod.fst).Nodup :=
  C3_amended.2 [[1], [2]] (by decide) (by norm_num)

/-! ## Claim C8: sequence "ffff" and polls -/

/-- C8 counterexample: after 65536 single-subchunk reads the `uint16` counter
has wrapped to `0xffff`, and the 65536th data query carries the sequence field
`"ffff"`. -/
theorem C8_counterexample :
    "ffff".toList ∈
      (uplinkQueries 0 (List.replicate 65536 [0])).map fun q => toHex4 q.1 := by
  have h : ∀ r ∈ List.replicate 65536 ([0] : List Nat), r ≠ [] ∧ r.length ≤ 100 := by
    intro r hr
    rw [List.eq_of_mem_replicate hr]
    exact ⟨by simp, by simp⟩
  have hfst := uplinkQueries_fst_range (List.replicate 65536 [0]) h
    (by simp only [List.length_replicate]; omega)
  rw [show (fun q : Nat × List Nat => toHex4 q.1) = toHex4 ∘ Prod.fst from rfl,
    ← List.map_map, hfst, List.length_replicate]
  exact List.mem_map.mpr ⟨65535, List.mem_range.mpr (by omega), by decide⟩

/-- C8 (amended): poll queries always carry the sequence field `"ffff"`
(`parseName` recovers it from the poll name), and a data query's sequence
field is the wrapping `uint16` value `readCounter + subchunkIndex`; as long as
every read yields a single subchunk and at most 65535 reads occur on the
connection, no data query carries `"ffff"`, but the value does appear on data
queries once the counter wraps (see the counterexample). -/
theorem C8_amended :
    (∀ reads : List (List Nat), (∀ r ∈ reads, r ≠ [] ∧ r.length ≤ 100) →
      reads.length ≤ 65535 →
      ∀ q ∈ uplinkQueries 0 reads, toHex4 q.1 ≠ "ffff".toList) ∧
    (∀ sid tld : List Char, '.' ∉ sid → '.' ∉ tld → tld ≠ [] →
      parseName (pollFqdn sid tld) =
        some ("AA".toList, "ffff".toList, sid, tld)) := by
  constructor
  · intro reads h hn q hq
    have hfst : q.1 ∈ (uplinkQueries 0 reads).map Prod.fst :=
      List.mem_map.mpr ⟨q, hq, rfl⟩
    rw [uplinkQueries_fst_range reads h (by omega)] at hfst
    have : q.1 < reads.length := List.mem_range.mp hfst
    exact toHex4_ne_ffff q.1 (by omega)
  · exact parseName_pollFqdn

/-- Witness for C8_amended: the single query of the single read `[[1]]`
carries sequence field `"0000"`, and the poll name for session `"ABCDEFG"`
and tld `"edu"` parses back with sequence `"ffff"`. -/
theorem C8_amended_witness :
    toHex4 ((0, [1]) : Nat × List Nat).1 ≠ "ffff".toList ∧
    parseName (pollFqdn "ABCDEFG".toList "edu".toList) =
      some ("AA".toList, "ffff".toList, "ABCDEFG".toList, "edu".toList) :=
  ⟨C8_amended.1 [[1]] (by decide) (by decide) (0, [1]) (by decide),
   C8_amended.2 "ABCDEFG".toList "edu".toList (by decide) (by decide) (by decide)⟩

/-! ## Claim C4: name parsing -/

/-- Modelled from the claim's wording: the name has at least 4 dot-separated
nonempty parts and the third part from the right consists of exactly 4
hexadecimal characters.  This is the condition the claim asserts `parseName`
checks; it is compared against the `parseName` embedded from the source. -/
def specNameOK (name : List Char) : Prop :=
  let parts := splitDots (trimSuffixDot name)
  4 ≤ parts.length ∧ (∀ p ∈ parts, p ≠ []) ∧
    (parts.getD (parts.length - 3) []).length = 4 ∧
    ∀ c ∈ parts.getD (parts.length - 3) [], c ∈ "0123456789abcdefABCDEF".toList

instance (name : List Char) : Decidable (specNameOK name) := by
  unfold specNameOK
  exact inferInstance

/-- C4 counterexample: the name `AA.zzzz.ABCDEFG.edu` has a third-from-right
part `zzzz` that is not hexadecimal, yet `parseName` accepts it and the server
does not answer FormatError (the payload `AA` decodes, so the query is handled
as data). -/
theorem C4_counterexample :
    (parseName "AA.zzzz.ABCDEFG.edu".toList).isSome = true ∧
    ¬ specNameOK "AA.zzzz.ABCDEFG.edu".toList ∧
    (handleDNSRequest [] "AA.zzzz.ABCDEFG.edu".toList ⟨.ok, .timeout, .ok⟩).1 ≠
      .err .formatError := by
  refine ⟨by decide, by decide, by decide⟩

/-- C4 (amended): parsing succeeds iff the name, after removal of at most one
trailing dot, splits into at least 4 dot-separated parts; the parts may be
empty and the sequence part is not validated as hexadecimal.  Names with
fewer than 4 parts are answered FormatError and leave the session table
untouched. -/
theorem C4_amended :
    (∀ name : List Char,
      (parseName name).isSome ↔ 4 ≤ (splitDots (trimSuffixDot name)).length) ∧
    (∀ (tbl : SessionTable) (name : List Char) (o : Oracle),
      (splitDots (trimSuffixDot name)).length < 4 →
      handleDNSRequest tbl name o = (.err .formatError, tbl)) := by
  constructor
  · intro name
    by_cases h : (splitDots (trimSuffixDot name)).length < 4 <;>
      simp [parseName, h] <;> omega
  · intro tbl name o h
    have hp : parseName name = none := by simp [parseName, h]
    simp [handleDNSRequest, hp]

/-- Witness for C4_amended at the three-part name `a.b.c`. -/
theorem C4_amended_witness :
    handleDNSRequest [] "a.b.c".toList ⟨.ok, .timeout, .ok⟩ =
      (.err .formatError, []) :=
  C4_amended.2 [] "a.b.c".toList ⟨.ok, .timeout, .ok⟩ (by decide)

/-! ## Claim C9: FormatError on bad payload is not side-effect free -/

/-- C9: for a data query (sequence ≠ "ffff") whose name parses but whose
payload fails base32 decoding, sent for a session id not in the table, the
server first dials the backend (successfully, by the oracle) and inserts a
fresh live session entry, then replies FormatError; the entry is still in the
table after the reply. -/
theorem C9_formatError_session (tbl : SessionTable)
    (name enc seqPart sid tld : List Char) (o : Oracle)
    (hp : parseName name = some (enc, seqPart, sid, tld))
    (hseq : seqPart ≠ "ffff".toList) (hdec : decodeDNSSafe enc = none)
    (hfresh : lookupSession tbl sid = none) (hdial : o.dial = .ok) :
    handleDNSRequest tbl name o =
      (.err .formatError, setSession tbl sid { connLive := true, closed := false }) ∧
    lookupSession (handleDNSRequest tbl name o).2 sid =
      some { connLive := true, closed := false } := by
  have hget : getSession tbl sid o.dial =
      some ({ connLive := true, closed := false },
        setSession tbl sid { connLive := true, closed := false }) := by
    simp only [getSession.eq_def, hfresh, hdial]
  have hmain : handleDNSRequest tbl name o =
      (.err .formatError, setSession tbl sid { connLive := true, closed := false }) := by
    simp only [handleDNSRequest, hp, hget, if_neg hseq, hdec]
  exact ⟨hmain, by rw [hmain]; exact lookup_setSession_self tbl sid _⟩

/-- Witness for C9 at the name `!!.0000.ABCDEFG.edu` on the empty table: the
payload `!!` contains characters outside the base32 alphabet, so it fails to
decode in every version of the decoder. -/
theorem C9_formatError_session_witness :
    handleDNSRequest [] "!!.0000.ABCDEFG.edu".toList ⟨.ok, .timeout, .ok⟩ =
      (.err .formatError,
        setSession [] "ABCDEFG".toList { connLive := true, closed := false }) ∧
    lookupSession
        (handleDNSRequest [] "!!.0000.ABCDEFG.edu".toList ⟨.ok, .timeout, .ok⟩).2
        "ABCDEFG".toList = some { connLive := true, closed := false } :=
  C9_formatError_session [] "!!.0000.ABCDEFG.edu".toList ['!', '!'] "0000".toList
    "ABCDEFG".toList "edu".toList ⟨.ok, .timeout, .ok⟩ (by decide) (by decide)
    (by decide) (by decide) (by decide)

/-! ## Claim C6: data writes -/

/-- C6: for a data query whose payload decodes to nonempty bytes, on a session
with a live backend connection: a successful backend write is acknowledged
with the single-string TXT answer `"EMPTY"`; a failed write closes the backend
connection (the session's connection slot becomes nil in the table) and the
reply is ServerFailure. -/
theorem C6_data_write (tbl : SessionTable) (name enc seqPart sid tld : List Char)
    (s : Session) (o : Oracle) (bs : List Nat)
    (hp : parseName name = some (enc, seqPart, sid, tld))
    (hseq : seqPart ≠ "ffff".toList) (hdec : decodeDNSSafe enc = some bs)
    (hbs : bs ≠ []) (hs : lookupSession tbl sid = some s)
    (hlive : s.connLive = true) :
    (o.write = .ok →
      handleDNSRequest tbl name o = (.txt ["EMPTY".toList], setSession tbl sid s)) ∧
    (o.write = .fail →
      handleDNSRequest tbl name o =
        (.err .servFail, setSession tbl sid { s with connLive := false }) ∧
      lookupSession (handleDNSRequest tbl name o).2 sid =
        some { s with connLive := false }) := by
  have hget : getSession tbl sid o.dial = some (s, tbl) := by
    simp only [getSession.eq_def, hs, if_pos hlive]
  constructor
  · intro hw
    simp only [handleDNSRequest, hp, hget, if_neg hseq, hdec, if_neg hbs,
      Session.write, hlive, hw, if_pos]
    rw [if_neg (by decide : ¬ 180 < ("EMPTY".toList).length)]
  · intro hw
    have hmain : handleDNSRequest tbl name o =
        (.err .servFail, setSession tbl sid { s with connLive := false }) := by
      simp only [handleDNSRequest, hp, hget, if_neg hseq, hdec, if_neg hbs,
        Session.write, hlive, hw, if_pos]
    exact ⟨hmain, by rw [hmain]; exact lookup_setSession_self tbl sid _⟩

/-- Witness for C6 on a one-entry table with a live session and the data name
`AA.0000.ABCDEFG.edu` (payload decodes to the single byte 0). -/
theorem C6_data_write_witness :
    handleDNSRequest [("ABCDEFG".toList, { connLive := true, closed := false })]
        "AA.0000.ABCDEFG.edu".toList ⟨.ok, .timeout, .ok⟩ =
      (.txt ["EMPTY".toList],
        setSession [("ABCDEFG".toList, { connLive := true, closed := false })]
          "ABCDEFG".toList { connLive := true, closed := false }) :=
  (C6_data_write [("ABCDEFG".toList, { connLive := true, closed := false })]
    "AA.0000.ABCDEFG.edu".toList "AA".toList "0000".toList "ABCDEFG".toList
    "edu".toList { connLive := true, closed := false } ⟨.ok, .timeout, .ok⟩ [0]
    (by decide) (by decide) (by decide) (by decide) (by decide) rfl).1 rfl

/-! ## Claim C5: poll replies -/

/-- C5 counterexample: on a fresh session a backend read timeout is answered
with the TXT string `"IVGVAVCZ"` — the base32 encoding of the sentinel bytes
`"EMPTY"` — not with the literal TXT answer `"EMPTY"`: `handlePoll` returns
the sentinel as nonempty bytes and the handler base32-encodes every nonempty
poll response, so the literal-`"EMPTY"` branch is dead on the poll path. -/
theorem C5_counterexample :
    (handleDNSRequest [] "AA.ffff.ABCDEFG.edu".toList ⟨.ok, .timeout, .ok⟩).1 =
      .txt ["IVGVAVCZ".toList] ∧
    (handleDNSRequest [] "AA.ffff.ABCDEFG.edu".toList ⟨.ok, .timeout, .ok⟩).1 ≠
      .txt ["EMPTY".toList] := by
  constructor <;> decide

theorem setSession_setSession (tbl : SessionTable) (sid : List Char)
    (s1 s2 : Session) :
    setSession (setSession tbl sid s1) sid s2 = setSession tbl sid s2 := by
  induction tbl with
  | nil => simp [setSession]
  | cons kv rest ih =>
    obtain ⟨k, v⟩ := kv
    by_cases hk : k = sid
    · subst hk
      simp [setSession]
    · simp [setSession, hk, ih]

/-- C5 (amended): for a poll query on a live, unclosed session: a read timeout
or a zero-byte read yields the sentinel bytes `"EMPTY"`, EOF or reset marks
the session closed (the table entry becomes closed with a nil connection) and
yields the sentinel bytes `"CLOSED"`, any other read error yields RCODE
ServerFailure, and nonempty data is returned as read; every nonempty poll
response — the sentinels included — is then base32-encoded and split on `.`
into the TXT record's strings, so the sentinels reach the wire encoded
(`"IVGVAVCZ"`, `"INGE6U2FIQ"`), not literally. -/
theorem C5_amended (tbl : SessionTable) (name enc sid tld : List Char)
    (s : Session) (o : Oracle)
    (hp : parseName name = some (enc, "ffff".toList, sid, tld))
    (hs : lookupSession tbl sid = some s) (hlive : s.connLive = true)
    (hopen : s.closed = false) :
    (o.read = .timeout →
      handleDNSRequest tbl name o =
        (.txt (splitDots (encodeDNSSafe ("EMPTY".toList.map Char.toNat))),
         setSession tbl sid s)) ∧
    (o.read = .ok [] →
      handleDNSRequest tbl name o =
        (.txt (splitDots (encodeDNSSafe ("EMPTY".toList.map Char.toNat))),
         setSession tbl sid s)) ∧
    (o.read = .eof →
      handleDNSRequest tbl name o =
        (.txt (splitDots (encodeDNSSafe ("CLOSED".toList.map Char.toNat))),
         setSession tbl sid { connLive := false, closed := true })) ∧
    (o.read = .reset →
      handleDNSRequest tbl name o =
        (.txt (splitDots (encodeDNSSafe ("CLOSED".toList.map Char.toNat))),
         setSession tbl sid { connLive := false, closed := true })) ∧
    (o.read = .otherErr →
      handleDNSRequest tbl name o = (.err .servFail, setSession tbl sid s)) ∧
    (∀ bs : List Nat, bs ≠ [] → o.read = .ok bs →
      handleDNSRequest tbl name o =
        (.txt (splitDots (encodeDNSSafe bs)), setSession tbl sid s)) := by
  have hget : getSession tbl sid o.dial = some (s, tbl) := by
    simp only [getSession.eq_def, hs, if_pos hlive]
  refine ⟨?_, ?_, ?_, ?_, ?_, ?_⟩
  · intro hr
    simp only [handleDNSRequest, hp, hget, handlePoll, hopen, hr]
    simp
  · intro hr
    simp only [handleDNSRequest, hp, hget, handlePoll, hopen, hr]
    simp
  · intro hr
    simp only [handleDNSRequest, hp, hget, handlePoll, hopen, hr, Session.close]
    simp [hopen]
  · intro hr
    simp only [handleDNSRequest, hp, hget, handlePoll, hopen, hr, Session.close]
    simp [hopen]
  · intro hr
    simp only [handleDNSRequest, hp, hget, handlePoll, hopen, hr]
    simp
  · intro bs hbs hr
    simp only [handleDNSRequest, hp, hget, handlePoll, hopen, hr]
    simp [hbs]

/-- Witness for C5_amended: the timeout case on a one-entry table. -/
theorem C5_amended_witness :
    handleDNSRequest [("ABCDEFG".toList, { connLive := true, closed := false })]
        "AA.ffff.ABCDEFG.edu".toList ⟨.ok, .timeout, .ok⟩ =
      (.txt (splitDots (encodeDNSSafe ("EMPTY".toList.map Char.toNat))),
        setSession [("ABCDEFG".toList, { connLive := true, closed := false })]
          "ABCDEFG".toList { connLive := true, closed := false }) :=
  (C5_amended [("ABCDEFG".toList, { connLive := true, closed := false })]
    "AA.ffff.ABCDEFG.edu".toList "AA".toList "ABCDEFG".toList "edu".toList
    { connLive := true, closed := false } ⟨.ok, .timeout, .ok⟩ (by decide)
    (by decide) rfl rfl).1 rfl

/-! ## Claim C2: the CLOSED state does not persist -/

/-- C2 counterexample: on a fresh session id, a poll whose backend read hits
EOF is answered with the encoding of `"CLOSED"` and marks the entry closed
with a nil connection; but the very next poll for the same session id — with
no eviction and no fresh id — finds the nil connection slot, re-dials the
backend and is answered with the encoding of `"EMPTY"`, and the next data
query is acknowledged with `"EMPTY"` rather than ServerFailure.  The closed
state lasts only until the next query. -/
theorem C2_counterexample :
    (handleDNSRequest [] "AA.ffff.ABCDEFG.edu".toList ⟨.ok, .eof, .ok⟩).1 =
      .txt ["INGE6U2FIQ".toList] ∧
    (handleDNSRequest
        (handleDNSRequest [] "AA.ffff.ABCDEFG.edu".toList ⟨.ok, .eof, .ok⟩).2
        "AA.ffff.ABCDEFG.edu".toList ⟨.ok, .timeout, .ok⟩).1 =
      .txt ["IVGVAVCZ".toList] ∧
    (handleDNSRequest
        (handleDNSRequest [] "AA.ffff.ABCDEFG.edu".toList ⟨.ok, .eof, .ok⟩).2
        "AA.0000.ABCDEFG.edu".toList ⟨.ok, .timeout, .ok⟩).1 =
      .txt ["EMPTY".toList] := by
  refine ⟨by decide, by decide, by decide⟩

/-- C2 (amended): the poll that observes backend EOF answers with the
(encoded) `"CLOSED"` sentinel and leaves the entry closed with a nil
connection slot; but `Session.Close` nils the slot and `getSession` re-creates
any entry whose slot is nil, so every subsequent query for that SessionID
re-dials the backend: with a successful dial a subsequent timeout-poll is
answered with the (encoded) `"EMPTY"` sentinel and the table holds a fresh
live entry, and with a failing dial the reply is ServerFailure, the table
unchanged.  `"CLOSED"` is not repeated and data queries do not fail while the
dial succeeds. -/
theorem C2_amended (tbl : SessionTable) (name enc sid tld : List Char)
    (s : Session) (hp : parseName name = some (enc, "ffff".toList, sid, tld))
    (hs : lookupSession tbl sid = some s) :
    (s.connLive = true → s.closed = false → ∀ o : Oracle, o.read = .eof →
      handleDNSRequest tbl name o =
        (.txt (splitDots (encodeDNSSafe ("CLOSED".toList.map Char.toNat))),
         setSession tbl sid { connLive := false, closed := true })) ∧
    (s.connLive = false → ∀ o : Oracle, o.dial = .ok → o.read = .timeout →
      handleDNSRequest tbl name o =
        (.txt (splitDots (encodeDNSSafe ("EMPTY".toList.map Char.toNat))),
         setSession tbl sid { connLive := true, closed := false })) ∧
    (s.connLive = false → ∀ o : Oracle, o.dial = .fail →
      handleDNSRequest tbl name o = (.err .servFail, tbl)) := by
  refine ⟨?_, ?_, ?_⟩
  · intro hlive hopen o hr
    have hget : getSession tbl sid o.dial = some (s, tbl) := by
      simp only [getSession.eq_def, hs, if_pos hlive]
    simp only [handleDNSRequest, hp, hget, handlePoll, hopen, hr, Session.close]
    simp [hopen]
  · intro hdead o hd hr
    have hget : getSession tbl sid o.dial =
        some ({ connLive := true, closed := false },
          setSession tbl sid { connLive := true, closed := false }) := by
      simp only [getSession.eq_def, hs, hdead, hd]
      simp
    simp only [handleDNSRequest, hp, hget, handlePoll, hr]
    simp [setSession_setSession]
  · intro hdead o hd
    have hget : getSession tbl sid o.dial = none := by
      simp only [getSession.eq_def, hs, hdead, hd]
      simp
    simp only [handleDNSRequest, hp, hget]

/-- Witness for C2_amended: the EOF-observing poll on a one-entry table. -/
theorem C2_amended_witness :
    handleDNSRequest [("ABCDEFG".toList, { connLive := true, closed := false })]
        "AA.ffff.ABCDEFG.edu".toList ⟨.ok, .eof, .ok⟩ =
      (.txt (splitDots (encodeDNSSafe ("CLOSED".toList.map Char.toNat))),
        setSession [("ABCDEFG".toList, { connLive := true, closed := false })]
          "ABCDEFG".toList { connLive := false, closed := true }) :=
  (C2_amended [("ABCDEFG".toList, { connLive := true, closed := false })]
    "AA.ffff.ABCDEFG.edu".toList "AA".toList "ABCDEFG".toList "edu".toList
    { connLive := true, closed := false } (by decide) (by decide)).1 rfl rfl
    ⟨.ok, .eof, .ok⟩ rfl

end Blind
